import Mathlib

/-!
# Kuhn poker game model, exploitability driver and tree depth

A shallow embedding of

* `src/csrc/poker/kuhn_poker.h` (`Action`, `PartialPublicState`, `Game`),
* `src/csrc/poker/rela/pybind.cc` (`compute_exploitability_no_net`),
* `src/csrc/poker/gen_benchmark.cc` (`get_depth`),

followed by theorems about these definitions.

Conventions of the embedding.

* A C++ `int` is a Lean `Int` in the range `INT_MIN .. INT_MAX` of a 32-bit `int`.  The
  subtraction `1 - state.player_id` of `Game::act` can leave that range; signed overflow
  is undefined behaviour in C++, and the embedding gives it the result of the compiled
  code, the two's-complement wrap (`wrap_int`).  The other arithmetic of the modelled
  code, `iter + 1` and `1 + get_depth(..)`, stays below the loop bound and the tree size.
* `Action` is an unscoped enum whose variables also hold the values `kInitialAction = -1`
  and `num_actions_ = 2`, so an `Action` is an `Int` and `kPass`, `kBet` are constants.
* A `double` is carried as its 64-bit pattern; no modelled operation reads it.  A field
  that a default-initialised struct never assigns is `none`.
-/

set_option autoImplicit false

namespace kuhn_poker

/-! ## `kuhn_poker.h` -/

/-- The enum `Action`; its variables also hold `-1` and `2` in the source. -/
abbrev Action := Int

/-- Enumerator `kPass = 0`. -/
def kPass : Action := 0

/-- Enumerator `kBet = 1`. -/
def kBet : Action := 1

/-- Bit pattern of a C++ `double`. -/
abbrev Double := Nat

/-- Smallest value of a 32-bit `int`. -/
def INT_MIN : Int := -2147483648

/-- Largest value of a 32-bit `int`. -/
def INT_MAX : Int := 2147483647

/-- The value is representable as an `int`. -/
def in_int_range (x : Int) : Prop := INT_MIN ≤ x ∧ x ≤ INT_MAX

instance (x : Int) : Decidable (in_int_range x) := by
  unfold in_int_range; infer_instance

/-- The `int` that a result of `int` arithmetic is stored as: the value itself when it is
representable, its two's-complement wrap to 32 bits otherwise. -/
def wrap_int (x : Int) : Int := (x + 2147483648) % 4294967296 - 2147483648

/-- Struct `PartialPublicState`, fields in declaration order.  `Game` writes the first
field under the name `last_bid`. -/
structure PartialPublicState where
  last_action : Action
  board_cards : List Int
  relative_pot : Option Double
  player_id : Int
  deriving DecidableEq, Repr

/-- Member `PartialPublicState::operator==`. -/
def PartialPublicState.eq (self state : PartialPublicState) : Bool :=
  self.last_action == state.last_action && self.player_id == state.player_id

/-- A default-initialised `PartialPublicState`: the vector is empty, the scalar fields
are indeterminate.  The two `int`-like fields are overwritten by every caller before the
value escapes; their placeholder here is `0`. -/
def PartialPublicState.uninit : PartialPublicState :=
  { last_action := 0, board_cards := [], relative_pot := none, player_id := 0 }

/-- Class `Game`: its data members. -/
structure Game where
  deck_size : Int
  community_pot : Int × Int
  num_actions_ : Action
  num_hands_ : Int
  deriving DecidableEq, Repr

/-- Private constant `Game::kInitialAction = -1`. -/
def Game.kInitialAction : Int := -1

/-- Constructor `Game(deck_size, community_pot)`. -/
def Game.new (deck_size : Int) (community_pot : Int × Int) : Game :=
  { deck_size := deck_size
    community_pot := community_pot
    num_actions_ := 2
    num_hands_ := deck_size }

/-- Member `Game::num_actions`. -/
def Game.num_actions (g : Game) : Action := g.num_actions_

/-- Member `Game::num_hands`. -/
def Game.num_hands (g : Game) : Int := g.num_hands_

/-- Member `Game::get_bid_range`: the source returns `(0, 1)` for every state, documented
as the range `[min_action, max_action)`. -/
def Game.get_bid_range (_g : Game) (_state : PartialPublicState) : Action × Action :=
  (0, 1)

/-- Member `Game::get_initial_state`. -/
def Game.get_initial_state (_g : Game) : PartialPublicState :=
  let state := PartialPublicState.uninit
  let state := { state with last_action := Game.kInitialAction }
  let state := { state with player_id := 0 }
  state

/-- Member `Game::act`.  The range is computed and not used: both assertions on it are
commented out in the source.  The `int` subtraction `1 - state.player_id` is stored as an
`int`. -/
def Game.act (g : Game) (state : PartialPublicState) (action : Action) :
    PartialPublicState :=
  let _range := g.get_bid_range state
  let new_state := PartialPublicState.uninit
  let new_state := { new_state with last_action := action }
  let new_state := { new_state with player_id := wrap_int (1 - state.player_id) }
  new_state

/-- Errors of the game-model contract. -/
inductive GameError where
  | InvalidAction
  deriving DecidableEq, Repr

/-- How a call `game.act(state, action)` ends.  The body of `Game::act` has no `throw` and
no live assertion, so the call returns the state built by `Game.act`. -/
def Game.act_outcome (g : Game) (state : PartialPublicState) (action : Action) :
    Except GameError PartialPublicState :=
  Except.ok (g.act state action)

/-- Membership of an action in a pair read as the half-open range
`[min_action, max_action)`, the reading documented at `get_bid_range`. -/
def in_bid_range (range : Action × Action) (action : Action) : Prop :=
  range.1 ≤ action ∧ action < range.2

instance (range : Action × Action) (action : Action) :
    Decidable (in_bid_range range action) := by
  unfold in_bid_range; infer_instance

/-- An action is legal in a state when it lies in `get_bid_range(state)`. -/
def Game.is_legal (g : Game) (state : PartialPublicState) (action : Action) : Prop :=
  in_bid_range (g.get_bid_range state) action

instance (g : Game) (state : PartialPublicState) (action : Action) :
    Decidable (g.is_legal state action) := by
  unfold Game.is_legal; infer_instance

/-- The actions of the game that lie in a range read as `[min_action, max_action)`. -/
def actions_in_range (range : Action × Action) : List Action :=
  [kPass, kBet].filter (fun a => decide (in_bid_range range a))

/-- The state reached from the initial state by applying `act` along a history. -/
def Game.play (g : Game) (history : List Action) : PartialPublicState :=
  history.foldl g.act g.get_initial_state

/-- The complete plays of Kuhn poker, from the rules in the header comment of
`kuhn_poker.h`: after a bet by P1, P2 bets (showdown) or passes (fold); after a pass by
P1, P2 passes (showdown) or bets, and then P1 bets (showdown) or passes (forfeit). -/
def kuhn_complete_plays : List (List Action) :=
  [[kBet, kBet], [kBet, kPass], [kPass, kPass], [kPass, kBet, kBet], [kPass, kBet, kPass]]

/-- Whether the game is over after a history, under the rules in the header comment. -/
def kuhn_game_over (history : List Action) : Bool :=
  decide (history ∈ kuhn_complete_plays)

/-! ## `gen_benchmark.cc` -/

/-- Modelled from the spec: the node type of a `Tree`, whose header is not among the
sources.  A node holds a public state, a parent index and a sequence of child indices. -/
structure UnrolledTreeNode where
  state : PartialPublicState
  parent : Int
  children : List Nat
  deriving DecidableEq, Repr

/-- Modelled from the spec: a `Tree` is an ordered sequence of nodes rooted at index 0. -/
abbrev Tree := List UnrolledTreeNode

/-- Modelled from the spec: `ChildrenIt(node)` ranges over the node's child indices, in
order. -/
def ChildrenIt (node : UnrolledTreeNode) : List Nat := node.children

/-- Function `get_depth(tree, root)`.  The C++ recursion has no measure of its own, so
the embedding carries the remaining call depth: `none` when it is used up, and also when
`tree[root]` is out of bounds (undefined behaviour in the source). -/
def get_depth : Nat → Tree → Nat → Option Int
  | 0, _, _ => none
  | fuel + 1, tree, root =>
    match tree[root]? with
    | none => none
    | some node =>
      (ChildrenIt node).foldlM
        (fun depth child => do
          let sub ← get_depth fuel tree child
          pure (max depth (1 + sub)))
        (1 : Int)

/-- The body of the loop of `get_depth`, with the recursive call as a parameter. -/
def depth_step (sub_depth : Nat → Option Int) (depth : Int) (child : Nat) : Option Int := do
  let sub ← sub_depth child
  pure (max depth (1 + sub))

/-- Child link of a tree: `c` is listed among the children of node `p`. -/
def IsChild (tree : Tree) (p c : Nat) : Prop :=
  ∃ node, tree[p]? = some node ∧ c ∈ ChildrenIt node

/-- Node `r` has no children. -/
def IsLeaf (tree : Tree) (r : Nat) : Prop :=
  ∃ node, tree[r]? = some node ∧ ChildrenIt node = []

/-- A downward path: a non-empty sequence of nodes starting at `r`, each the child of the
one before. -/
def IsDownPath (tree : Tree) (r : Nat) (path : List Nat) : Prop :=
  path.head? = some r ∧ List.Chain' (IsChild tree) path

/-- A downward path from `r` that ends in a leaf. -/
def IsLeafPath (tree : Tree) (r : Nat) (path : List Nat) : Prop :=
  IsDownPath tree r path ∧ ∃ l, path.getLast? = some l ∧ IsLeaf tree l

/-- The tree invariant of the spec: there is a root at index 0, child indices are
indices of the tree, every node other than the root has exactly one parent, and the
child links have no cycle. -/
structure TreeInvariant (tree : Tree) : Prop where
  rooted : 0 < tree.length
  children_valid : ∀ p c, IsChild tree p c → c < tree.length
  one_parent : ∀ c, 0 < c → c < tree.length → ∃! p, IsChild tree p c
  acyclic : ∀ a, ¬ Relation.TransGen (IsChild tree) a a

/-- A three-node tree: the root with two leaves. -/
def example_tree : Tree :=
  [ { state := (Game.new 3 (1, 1)).get_initial_state, parent := -1, children := [1, 2] },
    { state := (Game.new 3 (1, 1)).play [kPass], parent := 0, children := [] },
    { state := (Game.new 3 (1, 1)).play [kBet], parent := 0, children := [] } ]

end kuhn_poker

/-! ## `rela/pybind.cc` -/

namespace rela

open kuhn_poker

/-- Struct `SubgameSolvingParams`, with the fields the binding exposes. -/
structure SubgameSolvingParams where
  num_iters : Int
  max_depth : Int
  linear_update : Bool
  optimistic : Bool
  use_cfr : Bool
  dcfr : Bool
  dcfr_alpha : Double
  dcfr_beta : Double
  dcfr_gamma : Double
  deriving DecidableEq, Repr

/-- Struct `RecursiveSolvingParams`, with the fields the binding exposes. -/
structure RecursiveSolvingParams where
  deck_size : Int
  community_pot : Int × Int
  random_action_prob : Double
  sample_leaf : Bool
  subgame_params : SubgameSolvingParams
  deriving DecidableEq, Repr

/-- The solver library that `pybind.cc` calls and whose headers are not among the
sources, taken as a parameter: the solver object, its strategy, the beliefs and the
value type of an exploitability (`float` in the source). -/
structure SolverLib (Solver Strategy Beliefs V : Type) where
  get_initial_beliefs : Game → Beliefs
  build_solver : Game → PartialPublicState → Beliefs → SubgameSolvingParams → Solver
  get_strategy : Solver → Strategy
  compute_exploitability2 : Game → Strategy → V × V
  unroll_tree : Game → Tree

/-- Modelled from the spec: the solver's `step()`, which advances the solver by one CFR
iteration.  `compute_exploitability_no_net` does not call it. -/
structure SolverStep (Solver : Type) where
  step : Solver → Solver

/-- What `compute_exploitability_no_net` writes to standard output: a `printf` line with
its iteration label and the two values (the third printed number is half their sum), and
the strategy handed to `print_strategy`.  A line also records the strategy that was
passed to `compute_exploitability2`. -/
inductive Output (Strategy V : Type) where
  | exploitabilities (label : Int) (evaluated : Strategy) (v0 v1 : V)
  | print_strategy (tree : Tree) (strategy : Strategy)

/-- The Python error raised when `PyErr_CheckSignals()` reports a pending signal. -/
inductive PyError where
  | error_already_set
  deriving DecidableEq, Repr

section driver

variable {Solver Strategy Beliefs V : Type}

/-- One pass through the body of the `for` loop of `compute_exploitability_no_net`.
`signal iter` tells whether `PyErr_CheckSignals()` is non-zero in iteration `iter`.  The
`values` declared inside the `if` is a new variable, local to that block. -/
def loop_body (lib : SolverLib Solver Strategy Beliefs V) (game : Game) (fp : Solver)
    (num_iters : Int) (signal : Nat → Bool) (out : List (Output Strategy V)) (iter : Nat) :
    Except PyError (List (Output Strategy V)) :=
  let out :=
    if ((iter + 1) &&& iter) = 0 ∨ ((iter : Int) + 1 = num_iters) then
      let values := lib.compute_exploitability2 game (lib.get_strategy fp)
      out ++ [Output.exploitabilities ((iter : Int) + 1) (lib.get_strategy fp)
        values.1 values.2]
    else out
  if signal iter then throw PyError.error_already_set else pure out

/-- Function `compute_exploitability_no_net(params)`, bound as
`compute_exploitability_fp`: the returned value together with the output written. -/
def compute_exploitability_no_net [Zero V] [Add V]
    (lib : SolverLib Solver Strategy Beliefs V) (signal : Nat → Bool)
    (params : RecursiveSolvingParams) : Except PyError (V × List (Output Strategy V)) := do
  let game := Game.new params.deck_size params.community_pot
  let fp := lib.build_solver game game.get_initial_state (lib.get_initial_beliefs game)
    params.subgame_params
  let values : V × V := (0, 0)
  let out ← (List.range params.subgame_params.num_iters.toNat).foldlM
    (loop_body lib game fp params.subgame_params.num_iters signal) []
  let out := out ++ [Output.print_strategy (lib.unroll_tree game) (lib.get_strategy fp)]
  pure (values.1 + values.2, out)

/-- The solver object `fp` of `compute_exploitability_no_net`, as `build_solver` returns
it. -/
def built_solver (lib : SolverLib Solver Strategy Beliefs V)
    (params : RecursiveSolvingParams) : Solver :=
  lib.build_solver (Game.new params.deck_size params.community_pot)
    (Game.new params.deck_size params.community_pot).get_initial_state
    (lib.get_initial_beliefs (Game.new params.deck_size params.community_pot))
    params.subgame_params

/-- An output that is about the strategy of the solver as built: a line with the
exploitabilities of that strategy, or the print of that strategy. -/
def shows_built_strategy (lib : SolverLib Solver Strategy Beliefs V)
    (params : RecursiveSolvingParams) (o : Output Strategy V) : Prop :=
  (∃ label, o = Output.exploitabilities label (lib.get_strategy (built_solver lib params))
      (lib.compute_exploitability2 (Game.new params.deck_size params.community_pot)
        (lib.get_strategy (built_solver lib params))).1
      (lib.compute_exploitability2 (Game.new params.deck_size params.community_pot)
        (lib.get_strategy (built_solver lib params))).2) ∨
  o = Output.print_strategy (lib.unroll_tree (Game.new params.deck_size params.community_pot))
      (lib.get_strategy (built_solver lib params))

end driver

/-- A solver library for experiments: the solver is the number of steps it has taken, its
strategy is that number, and the exploitability of strategy `s` is `(1, s)`. -/
def counting_lib : SolverLib Nat Nat Unit Int where
  get_initial_beliefs := fun _ => ()
  build_solver := fun _ _ _ _ => 0
  get_strategy := fun fp => fp
  compute_exploitability2 := fun _ s => (1, (s : Int))
  unroll_tree := fun _ => example_tree

/-- The step of the counting solver. -/
def counting_step : SolverStep Nat where
  step := fun fp => fp + 1

/-- Parameters with the given number of iterations on the three-card deck. -/
def example_params (num_iters : Int) : RecursiveSolvingParams :=
  { deck_size := 3
    community_pot := (1, 1)
    random_action_prob := 0
    sample_leaf := false
    subgame_params :=
      { num_iters := num_iters, max_depth := 2, linear_update := true, optimistic := false,
        use_cfr := true, dcfr := false, dcfr_alpha := 0, dcfr_beta := 0, dcfr_gamma := 0 } }

end rela

/-! ## Theorems: the game model -/

namespace kuhn_poker

/-- Unfolding of `operator==` into its two field comparisons. -/
theorem PartialPublicState.eq_iff (s t : PartialPublicState) :
    s.eq t = true ↔ s.last_action = t.last_action ∧ s.player_id = t.player_id := by
  simp [PartialPublicState.eq]

/-- A representable value is stored unchanged. -/
theorem wrap_int_of_in_range (x : Int) (h : in_int_range x) : wrap_int x = x := by
  unfold in_int_range INT_MIN INT_MAX at h
  unfold wrap_int
  omega

/-- The values 0 and 1 are stored unchanged. -/
theorem wrap_int_zero_one : wrap_int 0 = 0 ∧ wrap_int 1 = 1 := by
  constructor <;> decide

/-- The fields that `act` writes. -/
theorem act_fields (g : Game) (s : PartialPublicState) (a : Action) :
    (g.act s a).last_action = a ∧ (g.act s a).player_id = wrap_int (1 - s.player_id) :=
  ⟨rfl, rfl⟩

/-- The acting player after folding `act` over a history from a state in which player 0
or player 1 is to act. -/
theorem foldl_act_player_id (g : Game) (history : List Action) (s : PartialPublicState)
    (hs : s.player_id = 0 ∨ s.player_id = 1) :
    (history.foldl g.act s).player_id =
      if history.length % 2 = 0 then s.player_id else 1 - s.player_id := by
  induction history generalizing s with
  | nil => simp
  | cons a rest ih =>
    have hflip : (g.act s a).player_id = 1 - s.player_id := by
      rw [(act_fields g s a).2]
      apply wrap_int_of_in_range
      unfold in_int_range INT_MIN INT_MAX
      omega
    rw [List.foldl_cons, ih (g.act s a) (by omega), hflip]
    simp only [List.length_cons]
    rcases Nat.mod_two_eq_zero_or_one rest.length with h | h
    · have h2 : (rest.length + 1) % 2 = 1 := by omega
      simp [h, h2]
    · have h2 : (rest.length + 1) % 2 = 0 := by omega
      simp [h, h2]

/-- C1: for every game, public state `s` and action `a`, `act(s, a)` is a state whose last
action is `a` and, when the `int` subtraction `1 - s.player_id` does not overflow, whose
`player_id` is `1 - s.player_id`. -/
theorem act_last_action_and_player (g : Game) (s : PartialPublicState) (a : Action) :
    (g.act s a).last_action = a ∧
    (in_int_range (1 - s.player_id) → (g.act s a).player_id = 1 - s.player_id) := by
  refine ⟨rfl, fun h => ?_⟩
  rw [(act_fields g s a).2]
  exact wrap_int_of_in_range _ h

/-- Witness of C1 at the state in which player 1 is to act after a bet. -/
theorem act_last_action_and_player_witness :
    in_int_range (1 - (PartialPublicState.mk kBet [] none 1).player_id) ∧
    ((Game.new 3 (1, 1)).act (PartialPublicState.mk kBet [] none 1) kPass).last_action
      = kPass ∧
    ((Game.new 3 (1, 1)).act (PartialPublicState.mk kBet [] none 1) kPass).player_id = 0 :=
  ⟨by decide,
   (act_last_action_and_player (Game.new 3 (1, 1)) (PartialPublicState.mk kBet [] none 1)
      kPass).1,
   (act_last_action_and_player (Game.new 3 (1, 1)) (PartialPublicState.mk kBet [] none 1)
      kPass).2 (by decide)⟩

/-- Where the subtraction overflows the stored value is the wrapped one: at
`player_id = INT_MIN` the successor has `player_id = -2147483647`, not `2147483649`. -/
theorem act_player_id_at_int_min :
    ¬ in_int_range (1 - (PartialPublicState.mk kPass [] none INT_MIN).player_id) ∧
    ((Game.new 3 (1, 1)).act (PartialPublicState.mk kPass [] none INT_MIN) kPass).player_id
      = -2147483647 := by
  constructor <;> decide

/-- C2, the claim refuted at an input: action id `2` is outside `get_bid_range` of the
initial state, yet the call of `act` does not end in `InvalidAction`. -/
theorem act_illegal_action_counterexample :
    ¬ (¬ (Game.new 3 (1, 1)).is_legal (Game.new 3 (1, 1)).get_initial_state 2 →
        (Game.new 3 (1, 1)).act_outcome (Game.new 3 (1, 1)).get_initial_state 2
          = Except.error GameError.InvalidAction) := by
  intro h
  have h2 := h (by decide)
  simp [Game.act_outcome] at h2

/-- C2 as amended: for every state `s` and every action `a` outside `get_bid_range(s)`,
the call of `act` does not fail with `InvalidAction`; it yields a successor state. -/
theorem act_illegal_action_returns (g : Game) (s : PartialPublicState) (a : Action)
    (h : ¬ g.is_legal s a) :
    g.act_outcome s a ≠ Except.error GameError.InvalidAction ∧
    ∃ s', g.act_outcome s a = Except.ok s' :=
  have _ := h
  ⟨by simp [Game.act_outcome], g.act s a, rfl⟩

/-- Witness of the amended C2 at action id `2` in the initial state. -/
theorem act_illegal_action_returns_witness :
    ¬ (Game.new 3 (1, 1)).is_legal (Game.new 3 (1, 1)).get_initial_state 2 ∧
    (Game.new 3 (1, 1)).act_outcome (Game.new 3 (1, 1)).get_initial_state 2
      ≠ Except.error GameError.InvalidAction ∧
    ∃ s', (Game.new 3 (1, 1)).act_outcome (Game.new 3 (1, 1)).get_initial_state 2
        = Except.ok s' :=
  ⟨by decide, act_illegal_action_returns _ _ 2 (by decide)⟩

/-- C3, the code evaluated: for every game built by the constructor and every state,
`get_bid_range` is `(0, 1)`; read as `[min_action, max_action)` it holds `kPass` only,
one action, while `num_actions()` is `2` and `kBet` is left out. -/
theorem get_bid_range_half_open_has_one_action (deck_size : Int) (pot : Int × Int)
    (s : PartialPublicState) :
    (Game.new deck_size pot).get_bid_range s = (0, 1) ∧
    actions_in_range ((Game.new deck_size pot).get_bid_range s) = [kPass] ∧
    ¬ in_bid_range ((Game.new deck_size pot).get_bid_range s) kBet ∧
    ((actions_in_range ((Game.new deck_size pot).get_bid_range s)).length : Int) = 1 ∧
    (Game.new deck_size pot).num_actions = 2 := by
  have h : (Game.new deck_size pot).get_bid_range s = (0, 1) := rfl
  rw [h]
  exact ⟨rfl, by decide, by decide, by decide, rfl⟩

/-- C4: `act` is a function of the acting player and the action only, up to `operator==`:
states with the same `player_id`, and so states equal under `operator==`, have successors
equal under `operator==`. -/
theorem act_depends_only_on_player (g : Game) (s1 s2 : PartialPublicState) (a : Action) :
    (s1.player_id = s2.player_id → (g.act s1 a).eq (g.act s2 a) = true) ∧
    (s1.eq s2 = true → (g.act s1 a).eq (g.act s2 a) = true) := by
  have key : s1.player_id = s2.player_id → (g.act s1 a).eq (g.act s2 a) = true := by
    intro h
    simp [PartialPublicState.eq, Game.act, h]
  exact ⟨key, fun h => key ((PartialPublicState.eq_iff s1 s2).1 h).2⟩

/-- Witness of C4 at two states that differ in last action, board cards and pot. -/
theorem act_depends_only_on_player_witness :
    (Game.new 3 (1, 1)).get_initial_state.player_id
        = (PartialPublicState.mk kBet [12] (some 7) 0).player_id ∧
    ((Game.new 3 (1, 1)).act (Game.new 3 (1, 1)).get_initial_state kPass).eq
        ((Game.new 3 (1, 1)).act (PartialPublicState.mk kBet [12] (some 7) 0) kPass) = true ∧
    (PartialPublicState.mk kBet [] none 1).eq (PartialPublicState.mk kBet [12] (some 7) 1)
        = true ∧
    ((Game.new 3 (1, 1)).act (PartialPublicState.mk kBet [] none 1) kBet).eq
        ((Game.new 3 (1, 1)).act (PartialPublicState.mk kBet [12] (some 7) 1) kBet) = true :=
  ⟨rfl,
   (act_depends_only_on_player (Game.new 3 (1, 1)) (Game.new 3 (1, 1)).get_initial_state
      (PartialPublicState.mk kBet [12] (some 7) 0) kPass).1 rfl,
   by decide,
   (act_depends_only_on_player (Game.new 3 (1, 1)) (PartialPublicState.mk kBet [] none 1)
      (PartialPublicState.mk kBet [12] (some 7) 1) kBet).2 (by decide)⟩

/-- C5: the initial state has `player_id = 0` and last action `kInitialAction = -1`, which
is neither `kPass` nor `kBet`; so no successor by `kPass` or `kBet` equals the initial
state under `operator==`. -/
theorem initial_state_not_a_successor (g : Game) :
    g.get_initial_state.player_id = 0 ∧
    g.get_initial_state.last_action = Game.kInitialAction ∧
    Game.kInitialAction = -1 ∧
    Game.kInitialAction ≠ kPass ∧ Game.kInitialAction ≠ kBet ∧
    ∀ (s : PartialPublicState) (a : Action), a = kPass ∨ a = kBet →
      (g.act s a).eq g.get_initial_state = false := by
  refine ⟨rfl, rfl, rfl, by decide, by decide, ?_⟩
  intro s a ha
  rcases ha with rfl | rfl <;>
    simp [PartialPublicState.eq, Game.act, Game.get_initial_state, Game.kInitialAction,
      PartialPublicState.uninit, kPass, kBet]

/-- Witness of C5: betting in a state where player 1 is to act does not give back the
initial state, although the acting player is again player 0. -/
theorem initial_state_not_a_successor_witness :
    (kBet = kPass ∨ kBet = kBet) ∧
    ((Game.new 3 (1, 1)).act (PartialPublicState.mk kPass [] none 1) kBet).player_id = 0 ∧
    ((Game.new 3 (1, 1)).act (PartialPublicState.mk kPass [] none 1) kBet).eq
      (Game.new 3 (1, 1)).get_initial_state = false :=
  ⟨Or.inr rfl, by decide,
   (initial_state_not_a_successor (Game.new 3 (1, 1))).2.2.2.2.2
     (PartialPublicState.mk kPass [] none 1) kBet (Or.inr rfl)⟩

/-- C6: `operator==` is reflexive, symmetric and transitive, holds exactly when the two
states agree on `last_action` and on `player_id`, and so ignores `board_cards` and
`relative_pot`. -/
theorem operator_eq_equivalence :
    (∀ s : PartialPublicState, s.eq s = true) ∧
    (∀ s t : PartialPublicState, s.eq t = true → t.eq s = true) ∧
    (∀ s t u : PartialPublicState, s.eq t = true → t.eq u = true → s.eq u = true) ∧
    (∀ s t : PartialPublicState,
      s.eq t = true ↔ s.last_action = t.last_action ∧ s.player_id = t.player_id) ∧
    (∀ (s : PartialPublicState) (cards : List Int) (pot : Option Double),
      s.eq { s with board_cards := cards, relative_pot := pot } = true) := by
  refine ⟨?_, ?_, ?_, PartialPublicState.eq_iff, ?_⟩
  · intro s
    simp [PartialPublicState.eq]
  · intro s t h
    rw [PartialPublicState.eq_iff] at h ⊢
    exact ⟨h.1.symm, h.2.symm⟩
  · intro s t u h1 h2
    rw [PartialPublicState.eq_iff] at h1 h2 ⊢
    exact ⟨h1.1.trans h2.1, h1.2.trans h2.2⟩
  · intro s cards pot
    simp [PartialPublicState.eq]

/-- Witness of C6: symmetry and transitivity used on states with different cards and
pots. -/
theorem operator_eq_equivalence_witness :
    (PartialPublicState.mk kBet [] none 1).eq (PartialPublicState.mk kBet [12] (some 7) 1)
        = true ∧
    (PartialPublicState.mk kBet [12] (some 7) 1).eq (PartialPublicState.mk kBet [] none 1)
        = true ∧
    (PartialPublicState.mk kBet [] none 1).eq (PartialPublicState.mk kBet [13] (some 9) 1)
        = true :=
  ⟨by decide,
   operator_eq_equivalence.2.1 (PartialPublicState.mk kBet [] none 1)
     (PartialPublicState.mk kBet [12] (some 7) 1) (by decide),
   operator_eq_equivalence.2.2.1 (PartialPublicState.mk kBet [] none 1)
     (PartialPublicState.mk kBet [12] (some 7) 1)
     (PartialPublicState.mk kBet [13] (some 9) 1) (by decide) (by decide)⟩

/-- C9: after any `k` actions applied with `act` from the initial state the acting player
is `k mod 2`; so it is `0` or `1`, it is `0` before the first and the third action and `1`
before the second. -/
theorem play_player_id (g : Game) (history : List Action) :
    (g.play history).player_id = ((history.length % 2 : Nat) : Int) ∧
    ((g.play history).player_id = 0 ∨ (g.play history).player_id = 1) ∧
    (history.length = 0 ∨ history.length = 2 → (g.play history).player_id = 0) ∧
    (history.length = 1 → (g.play history).player_id = 1) := by
  have key : (g.play history).player_id = ((history.length % 2 : Nat) : Int) := by
    unfold Game.play
    rw [foldl_act_player_id g history g.get_initial_state (Or.inl rfl)]
    rcases Nat.mod_two_eq_zero_or_one history.length with h | h <;>
      simp [h, Game.get_initial_state]
  refine ⟨key, ?_, ?_, ?_⟩
  · rw [key]; omega
  · intro h; rw [key]; omega
  · intro h; rw [key]; omega

/-- Witness of C9 on the history pass, bet: player 0 is to act before the third action. -/
theorem play_player_id_witness :
    [kPass, kBet].length = 2 ∧
    ((Game.new 3 (1, 1)).play [kPass, kBet]).player_id = 0 :=
  ⟨rfl, (play_player_id (Game.new 3 (1, 1)) [kPass, kBet]).2.2.1 (Or.inr rfl)⟩

/-- C11: the history pass, bet, pass ends the game under the documented rules and the
history pass does not, yet folding `act` over either gives states equal under
`operator==`, both with `player_id = 1` and last action `kPass`; so no function of the
public state that respects `operator==` tells whether the game is over. -/
theorem game_over_not_a_function_of_state (g : Game) :
    kuhn_game_over [kPass, kBet, kPass] = true ∧
    kuhn_game_over [kPass] = false ∧
    (g.play [kPass, kBet, kPass]).eq (g.play [kPass]) = true ∧
    (g.play [kPass, kBet, kPass]).player_id = 1 ∧
    (g.play [kPass, kBet, kPass]).last_action = kPass ∧
    (g.play [kPass]).player_id = 1 ∧
    (g.play [kPass]).last_action = kPass ∧
    ¬ ∃ over : PartialPublicState → Bool,
      (∀ s t : PartialPublicState, s.eq t = true → over s = over t) ∧
      ∀ history, over (g.play history) = kuhn_game_over history := by
  have heq : (g.play [kPass, kBet, kPass]).eq (g.play [kPass]) = true := by
    simp [Game.play, Game.act, Game.get_initial_state, PartialPublicState.eq,
      wrap_int_zero_one]
  refine ⟨by decide, by decide, heq, ?_, ?_, ?_, ?_, ?_⟩
  · simp [Game.play, Game.act, Game.get_initial_state, wrap_int_zero_one]
  · simp [Game.play, Game.act]
  · simp [Game.play, Game.act, Game.get_initial_state, wrap_int_zero_one]
  · simp [Game.play, Game.act]
  · rintro ⟨over, hresp, hover⟩
    have h1 := hover [kPass, kBet, kPass]
    have h2 := hover [kPass]
    rw [hresp _ _ heq, h2] at h1
    revert h1
    decide

end kuhn_poker

/-! ## Theorems: the exploitability driver -/

namespace rela

open kuhn_poker

/-- Whatever the solver library, the signals and the parameters, a normal return of
`compute_exploitability_no_net` carries the sum of the two zeros of the outer `values`. -/
theorem compute_exploitability_no_net_value {Solver Strategy Beliefs V : Type} [Zero V]
    [Add V] (lib : SolverLib Solver Strategy Beliefs V) (signal : Nat → Bool)
    (params : RecursiveSolvingParams) (r : V × List (Output Strategy V))
    (h : compute_exploitability_no_net lib signal params = Except.ok r) :
    r.1 = 0 + 0 := by
  unfold compute_exploitability_no_net at h
  simp only [bind, Except.bind, pure, Except.pure] at h
  split at h
  · cases h
  · cases h
    rfl

/-- An invariant of the accumulator that each step keeps holds after a fold that returns
normally. -/
theorem foldlM_except_invariant {ε α β : Type} (P : β → Prop) (f : β → α → Except ε β)
    (hstep : ∀ acc x acc', P acc → f acc x = Except.ok acc' → P acc')
    (l : List α) (init r : β) (hinit : P init) (h : l.foldlM f init = Except.ok r) : P r := by
  induction l generalizing init with
  | nil =>
    simp only [List.foldlM, pure, Except.pure, Except.ok.injEq] at h
    exact h ▸ hinit
  | cons x rest ih =>
    rw [List.foldlM_cons] at h
    cases hx : f init x with
    | error e => simp [hx, bind, Except.bind] at h
    | ok acc =>
      simp only [hx, bind, Except.bind] at h
      exact ih acc (hstep _ _ _ hinit hx) h

/-- Whatever the solver library, the signals and the parameters, every output of a normal
run of `compute_exploitability_no_net` is about the strategy of the solver as
`build_solver` returned it. -/
theorem compute_exploitability_no_net_output {Solver Strategy Beliefs V : Type} [Zero V]
    [Add V] (lib : SolverLib Solver Strategy Beliefs V) (signal : Nat → Bool)
    (params : RecursiveSolvingParams) (r : V × List (Output Strategy V))
    (h : compute_exploitability_no_net lib signal params = Except.ok r) :
    ∀ o ∈ r.2, shows_built_strategy lib params o := by
  unfold compute_exploitability_no_net at h
  simp only [bind, Except.bind, pure, Except.pure] at h
  split at h
  · cases h
  · rename_i out hout
    cases h
    have key : ∀ o ∈ out, shows_built_strategy lib params o := by
      refine foldlM_except_invariant
        (fun acc : List (Output Strategy V) => ∀ o ∈ acc, shows_built_strategy lib params o)
        _ ?_ _ _ _ ?_ hout
      · intro acc iter acc' hacc hbody o ho
        unfold loop_body at hbody
        simp only [pure, Except.pure, throw, throwThe, MonadExceptOf.throw] at hbody
        split at hbody
        · cases hbody
        · cases hbody
          split at ho
          · rcases List.mem_append.1 ho with ho | ho
            · exact hacc o ho
            · exact Or.inl ⟨(iter : Int) + 1, List.mem_singleton.1 ho⟩
          · exact hacc o ho
      · intro o ho
        cases ho
    intro o ho
    rcases List.mem_append.1 ho with ho | ho
    · exact key o ho
    · exact Or.inr (List.mem_singleton.1 ho)

/-- C7, the code evaluated at `num_iters = 1` without a signal: the last (and only)
iteration prints the exploitabilities `(1, 0)` of the solver's strategy, whose sum is `1`,
and the function returns `0`. -/
theorem compute_exploitability_no_net_returns_zero :
    compute_exploitability_no_net counting_lib (fun _ => false) (example_params 1)
      = Except.ok (0, [Output.exploitabilities 1 0 1 0,
          Output.print_strategy example_tree 0]) ∧
    (counting_lib.compute_exploitability2 (Game.new 3 (1, 1)) 0).1
      + (counting_lib.compute_exploitability2 (Game.new 3 (1, 1)) 0).2 = 1 := by
  constructor
  · rfl
  · rfl

/-- C8, the code evaluated at `num_iters = 4` without a signal: the lines labelled 1, 2
and 4 and the final print all show strategy `0`, the strategy of the solver as built,
while the strategy after four steps of the counting solver is `4`. -/
theorem compute_exploitability_no_net_never_steps :
    compute_exploitability_no_net counting_lib (fun _ => false) (example_params 4)
      = Except.ok (0, [Output.exploitabilities 1 0 1 0, Output.exploitabilities 2 0 1 0,
          Output.exploitabilities 4 0 1 0, Output.print_strategy example_tree 0]) ∧
    counting_lib.get_strategy (counting_step.step^[4]
      (counting_lib.build_solver (Game.new 3 (1, 1)) (Game.new 3 (1, 1)).get_initial_state
        (counting_lib.get_initial_beliefs (Game.new 3 (1, 1)))
        (example_params 4).subgame_params)) = 4 := by
  constructor
  · rfl
  · rfl

end rela

/-! ## Theorems: the depth of a tree -/

namespace kuhn_poker

/-- One unfolding of `get_depth` at a node of the tree. -/
theorem get_depth_succ (fuel : Nat) (tree : Tree) (r : Nat) (node : UnrolledTreeNode)
    (h : tree[r]? = some node) :
    get_depth (fuel + 1) tree r
      = (ChildrenIt node).foldlM (depth_step (get_depth fuel tree)) 1 := by
  simp only [get_depth, h]
  rfl

/-- Outside the tree `get_depth` has no value. -/
theorem get_depth_none_of_not_node (fuel : Nat) (tree : Tree) (r : Nat)
    (h : tree[r]? = none) : get_depth fuel tree r = none := by
  cases fuel with
  | zero => rfl
  | succ n => simp only [get_depth, h]

/-- The loop of `get_depth` returns a value exactly when every child has a depth; the value
is then the running maximum of `1 + depth` over the children. -/
theorem foldlM_depth_step_eq_some (g : Nat → Option Int) (cs : List Nat) (init d : Int) :
    cs.foldlM (depth_step g) init = some d ↔
      ∃ ds, List.Forall₂ (fun c dc => g c = some dc) cs ds ∧
        d = ds.foldl (fun acc dc => max acc (1 + dc)) init := by
  induction cs generalizing init with
  | nil =>
    constructor
    · intro h
      simp only [List.foldlM, pure, Option.some.injEq] at h
      exact ⟨[], List.Forall₂.nil, by simp [h]⟩
    · rintro ⟨ds, hds, hd⟩
      cases hds
      simp [hd, pure]
  | cons c rest ih =>
    constructor
    · intro h
      rw [List.foldlM_cons] at h
      cases hc : g c with
      | none => simp [depth_step, hc] at h
      | some dc =>
        simp only [depth_step, hc, Option.bind_eq_bind, Option.some_bind, pure] at h
        obtain ⟨ds, hds, hd⟩ := (ih _).1 h
        exact ⟨dc :: ds, List.Forall₂.cons hc hds, by simpa using hd⟩
    · rintro ⟨ds, hds, hd⟩
      cases hds with
      | cons hc hrest =>
        rw [List.foldlM_cons]
        simp only [depth_step, hc, Option.bind_eq_bind, Option.some_bind, pure]
        exact (ih _).2 ⟨_, hrest, by simpa using hd⟩

/-- The running maximum is at least its start value and at least `1 + dc` for each entry. -/
theorem foldl_max_ge (ds : List Int) (init : Int) :
    init ≤ ds.foldl (fun acc dc => max acc (1 + dc)) init ∧
    ∀ dc ∈ ds, 1 + dc ≤ ds.foldl (fun acc dc => max acc (1 + dc)) init := by
  induction ds generalizing init with
  | nil => simp
  | cons x rest ih =>
    simp only [List.foldl_cons, List.mem_cons]
    have h := ih (max init (1 + x))
    refine ⟨le_trans (le_max_left _ _) h.1, ?_⟩
    rintro dc (rfl | hdc)
    · exact le_trans (le_max_right _ _) h.1
    · exact h.2 dc hdc

/-- The running maximum is attained: by the start value or by some entry. -/
theorem foldl_max_attained (ds : List Int) (init : Int) :
    ds.foldl (fun acc dc => max acc (1 + dc)) init = init ∨
    ∃ dc ∈ ds, ds.foldl (fun acc dc => max acc (1 + dc)) init = 1 + dc := by
  induction ds generalizing init with
  | nil => simp
  | cons x rest ih =>
    simp only [List.foldl_cons, List.mem_cons]
    rcases ih (max init (1 + x)) with h | ⟨dc, hdc, h⟩
    · rcases max_choice init (1 + x) with hm | hm
      · left; rw [h, hm]
      · right; exact ⟨x, Or.inl rfl, by rw [h, hm]⟩
    · right; exact ⟨dc, Or.inr hdc, h⟩

/-- The running maximum started at `1 + x` is one more than the maximum of the entries
and `x`. -/
theorem foldl_max_add_one (ds : List Int) (x : Int) :
    ds.foldl (fun acc dc => max acc (1 + dc)) (1 + x) = 1 + ds.foldl max x := by
  induction ds generalizing x with
  | nil => simp
  | cons y rest ih =>
    simp only [List.foldl_cons]
    rw [← ih (max x y), max_add_add_left]

/-- Related lists: every element on the left has a partner on the right. -/
theorem forall₂_mem_left {α β : Type} {R : α → β → Prop} {l1 : List α} {l2 : List β}
    (h : List.Forall₂ R l1 l2) {a : α} (ha : a ∈ l1) : ∃ b ∈ l2, R a b := by
  induction h with
  | nil => cases ha
  | cons hab _ ih =>
    rcases List.mem_cons.1 ha with rfl | ha
    · exact ⟨_, List.mem_cons_self _ _, hab⟩
    · obtain ⟨b, hb, hr⟩ := ih ha
      exact ⟨b, List.mem_cons_of_mem _ hb, hr⟩

/-- Related lists: every element on the right has a partner on the left. -/
theorem forall₂_mem_right {α β : Type} {R : α → β → Prop} {l1 : List α} {l2 : List β}
    (h : List.Forall₂ R l1 l2) {b : β} (hb : b ∈ l2) : ∃ a ∈ l1, R a b := by
  induction h with
  | nil => cases hb
  | cons hab _ ih =>
    rcases List.mem_cons.1 hb with rfl | hb
    · exact ⟨_, List.mem_cons_self _ _, hab⟩
    · obtain ⟨a, ha, hr⟩ := ih hb
      exact ⟨a, List.mem_cons_of_mem _ ha, hr⟩

/-- A list of partners exists when every element has one. -/
theorem forall₂_of_forall_exists {α β : Type} {R : α → β → Prop} (l1 : List α)
    (h : ∀ a ∈ l1, ∃ b, R a b) : ∃ l2, List.Forall₂ R l1 l2 := by
  induction l1 with
  | nil => exact ⟨[], List.Forall₂.nil⟩
  | cons a rest ih =>
    obtain ⟨b, hb⟩ := h a (List.mem_cons_self _ _)
    obtain ⟨l2, hl2⟩ := ih (fun x hx => h x (List.mem_cons_of_mem _ hx))
    exact ⟨b :: l2, List.Forall₂.cons hb hl2⟩

/-- When the loop of `get_depth` has no value, some child has none. -/
theorem foldlM_depth_step_eq_none (g : Nat → Option Int) (cs : List Nat) (init : Int)
    (h : cs.foldlM (depth_step g) init = none) : ∃ c ∈ cs, g c = none := by
  by_contra hne
  push_neg at hne
  have hall : ∀ c ∈ cs, ∃ dc, g c = some dc := fun c hc =>
    Option.ne_none_iff_exists'.1 (hne c hc)
  obtain ⟨ds, hds⟩ := forall₂_of_forall_exists cs hall
  have := (foldlM_depth_step_eq_some g cs init _).2 ⟨ds, hds, rfl⟩
  rw [h] at this
  cases this

/-- More remaining call depth does not change a value of `get_depth`. -/
theorem get_depth_succ_fuel (fuel : Nat) (tree : Tree) (r : Nat) (d : Int)
    (h : get_depth fuel tree r = some d) : get_depth (fuel + 1) tree r = some d := by
  induction fuel generalizing r d with
  | zero => cases h
  | succ n ih =>
    cases hn : tree[r]? with
    | none => rw [get_depth_none_of_not_node _ _ _ hn] at h; cases h
    | some node =>
      rw [get_depth_succ _ _ _ _ hn] at h ⊢
      obtain ⟨ds, hds, hd⟩ := (foldlM_depth_step_eq_some _ _ _ _).1 h
      exact (foldlM_depth_step_eq_some _ _ _ _).2 ⟨ds, hds.imp (fun _ _ hc => ih _ _ hc), hd⟩

/-- A value of `get_depth` is kept for every larger remaining call depth. -/
theorem get_depth_mono_fuel (fuel fuel' : Nat) (tree : Tree) (r : Nat) (d : Int)
    (hle : fuel ≤ fuel') (h : get_depth fuel tree r = some d) :
    get_depth fuel' tree r = some d := by
  induction hle with
  | refl => exact h
  | step _ ih => exact get_depth_succ_fuel _ _ _ _ ih

/-- A value of `get_depth` at `r` is at least 1, is the length of some downward path from
`r` to a leaf, and bounds the length of every downward path from `r`. -/
theorem get_depth_sound (fuel : Nat) (tree : Tree) (r : Nat) (d : Int)
    (h : get_depth fuel tree r = some d) :
    1 ≤ d ∧ (∃ path, IsLeafPath tree r path ∧ (path.length : Int) = d) ∧
      ∀ path, IsDownPath tree r path → (path.length : Int) ≤ d := by
  induction fuel generalizing r d with
  | zero => cases h
  | succ n ih =>
    cases hn : tree[r]? with
    | none => rw [get_depth_none_of_not_node _ _ _ hn] at h; cases h
    | some node =>
      rw [get_depth_succ _ _ _ _ hn] at h
      obtain ⟨ds, hds, hd⟩ := (foldlM_depth_step_eq_some _ _ _ _).1 h
      have hge := foldl_max_ge ds 1
      rw [← hd] at hge
      refine ⟨hge.1, ?_, ?_⟩
      · rcases foldl_max_attained ds 1 with h1 | ⟨dc, hdc, h1⟩
        · rw [← hd] at h1
          rcases ds with _ | ⟨dc0, rest⟩
          · have hcs : ChildrenIt node = [] := List.forall₂_nil_right_iff.1 hds
            refine ⟨[r], ⟨⟨rfl, List.chain'_singleton r⟩, r, rfl, node, hn, hcs⟩, ?_⟩
            simp [h1]
          · obtain ⟨c, _, hc⟩ := forall₂_mem_right hds (List.mem_cons_self dc0 rest)
            have h2 := hge.2 _ (List.mem_cons_self _ _)
            have h3 := (ih _ _ hc).1
            omega
        · rw [← hd] at h1
          obtain ⟨c, hc, hgc⟩ := forall₂_mem_right hds hdc
          obtain ⟨_, ⟨pc, ⟨⟨hhead, hchain⟩, l, hlast, hleaf⟩, hlen⟩, _⟩ := ih _ _ hgc
          refine ⟨r :: pc, ⟨⟨rfl, ?_⟩, l, ?_, hleaf⟩, ?_⟩
          · refine hchain.cons' ?_
            intro y hy
            rw [hhead] at hy
            cases hy
            exact ⟨node, hn, hc⟩
          · cases pc with
            | nil => cases hhead
            | cons x rest => rw [List.getLast?_cons_cons]; exact hlast
          · rw [List.length_cons, h1]
            push_cast
            omega
      · rintro path ⟨hhead, hchain⟩
        match path, hhead, hchain with
        | [x], _, _ => simpa using hge.1
        | x :: c :: rest, hhead, hchain =>
          simp only [List.head?_cons, Option.some.injEq] at hhead
          subst hhead
          obtain ⟨⟨node', hn', hc⟩, hrest⟩ := List.chain'_cons.1 hchain
          rw [hn] at hn'
          cases hn'
          obtain ⟨dc, hdc, hgc⟩ := forall₂_mem_left hds hc
          have hlen := (ih _ _ hgc).2.2 (c :: rest) ⟨rfl, hrest⟩
          have h2 := hge.2 dc hdc
          simp only [List.length_cons] at hlen ⊢
          push_cast at hlen ⊢
          omega

/-- When `get_depth` runs out of call depth at a node of a tree whose child indices are
valid, there is a downward path with more nodes than the call depth allowed. -/
theorem get_depth_none_path (fuel : Nat) (tree : Tree) (r : Nat)
    (hvalid : ∀ p c, IsChild tree p c → c < tree.length) (hr : r < tree.length)
    (h : get_depth fuel tree r = none) :
    ∃ path, IsDownPath tree r path ∧ path.length = fuel + 1 := by
  induction fuel generalizing r with
  | zero => exact ⟨[r], ⟨rfl, List.chain'_singleton r⟩, rfl⟩
  | succ n ih =>
    have hn : tree[r]? = some tree[r] := List.getElem?_eq_getElem hr
    rw [get_depth_succ _ _ _ _ hn] at h
    obtain ⟨c, hc, hgc⟩ := foldlM_depth_step_eq_none _ _ _ h
    have hchild : IsChild tree r c := ⟨_, hn, hc⟩
    obtain ⟨pc, ⟨hhead, hchain⟩, hlen⟩ := ih c (hvalid _ _ hchild) hgc
    refine ⟨r :: pc, ⟨rfl, ?_⟩, by simp [hlen]⟩
    refine hchain.cons' ?_
    intro y hy
    rw [hhead] at hy
    cases hy
    exact hchild

/-- The nodes of a downward path that starts inside the tree are indices of the tree. -/
theorem down_path_valid (tree : Tree) (hvalid : ∀ p c, IsChild tree p c → c < tree.length)
    (path : List Nat) (r : Nat) (hr : r < tree.length) (h : IsDownPath tree r path) :
    ∀ x ∈ path, x < tree.length := by
  induction path generalizing r with
  | nil => intro x hx; cases hx
  | cons a rest ih =>
    obtain ⟨hhead, hchain⟩ := h
    simp only [List.head?_cons, Option.some.injEq] at hhead
    subst hhead
    intro x hx
    rcases List.mem_cons.1 hx with rfl | hx
    · exact hr
    · cases rest with
      | nil => cases hx
      | cons c rest' =>
        obtain ⟨hac, hrest⟩ := List.chain'_cons.1 hchain
        exact ih c (hvalid _ _ hac) ⟨rfl, hrest⟩ x hx

/-- In a tree without cycles no node occurs twice on a downward path. -/
theorem down_path_nodup (tree : Tree)
    (hacyclic : ∀ a, ¬ Relation.TransGen (IsChild tree) a a)
    (path : List Nat) (h : List.Chain' (IsChild tree) path) : path.Nodup := by
  have h1 : List.Chain' (Relation.TransGen (IsChild tree)) path :=
    h.imp (fun _ _ hab => Relation.TransGen.single hab)
  have h2 : List.Pairwise (Relation.TransGen (IsChild tree)) path :=
    List.chain'_iff_pairwise.1 h1
  refine h2.imp ?_
  intro a b hab heq
  subst heq
  exact hacyclic a hab

/-- In a tree that satisfies the invariant a downward path has at most as many nodes as
the tree. -/
theorem down_path_length_le (tree : Tree) (inv : TreeInvariant tree) (path : List Nat)
    (r : Nat) (hr : r < tree.length) (h : IsDownPath tree r path) :
    path.length ≤ tree.length := by
  have hnodup := down_path_nodup tree inv.acyclic path h.2
  have hsub : path ⊆ List.range tree.length := fun x hx =>
    List.mem_range.2 (down_path_valid tree inv.children_valid path r hr h x hx)
  have := (List.subperm_of_subset hnodup hsub).length_le
  simpa using this

/-- Child links that always lead to a larger index have no cycle. -/
theorem acyclic_of_increasing (tree : Tree) (h : ∀ p c, IsChild tree p c → p < c) :
    ∀ a, ¬ Relation.TransGen (IsChild tree) a a := by
  have key : ∀ a b, Relation.TransGen (IsChild tree) a b → a < b := by
    intro a b hab
    induction hab with
    | single hac => exact h _ _ hac
    | tail _ hbc ih => exact lt_trans ih (h _ _ hbc)
  intro a haa
  exact lt_irrefl a (key a a haa)

/-- The child links of the example tree. -/
theorem example_tree_child (p c : Nat) :
    IsChild example_tree p c ↔ p = 0 ∧ (c = 1 ∨ c = 2) := by
  constructor
  · rintro ⟨node, hn, hc⟩
    match p with
    | 0 =>
      simp only [example_tree, List.getElem?_cons_zero, Option.some.injEq] at hn
      subst hn
      simpa [ChildrenIt] using hc
    | 1 =>
      simp only [example_tree, List.getElem?_cons_succ, List.getElem?_cons_zero,
        Option.some.injEq] at hn
      subst hn
      simp [ChildrenIt] at hc
    | 2 =>
      simp only [example_tree, List.getElem?_cons_succ, List.getElem?_cons_zero,
        Option.some.injEq] at hn
      subst hn
      simp [ChildrenIt] at hc
    | n + 3 => simp [example_tree] at hn
  · rintro ⟨rfl, hc⟩
    refine ⟨example_tree[0], rfl, ?_⟩
    rcases hc with rfl | rfl <;> simp [ChildrenIt, example_tree]

/-- The example tree satisfies the tree invariant. -/
theorem example_tree_invariant : TreeInvariant example_tree where
  rooted := by decide
  children_valid := by
    intro p c h
    rcases (example_tree_child p c).1 h with ⟨_, rfl | rfl⟩ <;> decide
  one_parent := by
    intro c h0 h3
    have hc : c = 1 ∨ c = 2 := by
      have : example_tree.length = 3 := rfl
      omega
    refine ⟨0, (example_tree_child 0 c).2 ⟨rfl, hc⟩, ?_⟩
    intro p hp
    exact ((example_tree_child p c).1 hp).1
  acyclic := by
    apply acyclic_of_increasing
    intro p c h
    rcases (example_tree_child p c).1 h with ⟨rfl, rfl | rfl⟩ <;> decide

/-- With call depth `tree.length`, `get_depth` has a value at every node of a tree that
satisfies the invariant. -/
theorem get_depth_defined (tree : Tree) (inv : TreeInvariant tree) (r : Nat)
    (hr : r < tree.length) : ∃ d, get_depth tree.length tree r = some d := by
  cases h : get_depth tree.length tree r with
  | some d => exact ⟨d, rfl⟩
  | none =>
    obtain ⟨path, hpath, hlen⟩ := get_depth_none_path _ tree r inv.children_valid hr h
    have := down_path_length_le tree inv path r hr hpath
    omega

/-- C10: in a tree that satisfies the tree invariant, `get_depth(tree, r)` has a value `d`
at every node `r` (for every call depth of at least `tree.size()`), `d` is the number of
nodes of some downward path from `r` to a leaf and no downward path from `r` has more;
`d = 1` when `r` has no children and `d = 1 + m` with `m` the largest depth of a child
otherwise; and at the root, every root-to-leaf path has at most `get_depth(tree)` nodes
and `1 ≤ get_depth(tree) ≤ tree.size()`. -/
theorem get_depth_spec (tree : Tree) (inv : TreeInvariant tree) :
    (∀ r, r < tree.length →
      ∃ d : Int,
        (∀ fuel, tree.length ≤ fuel → get_depth fuel tree r = some d) ∧
        (∃ path, IsLeafPath tree r path ∧ (path.length : Int) = d) ∧
        (∀ path, IsDownPath tree r path → (path.length : Int) ≤ d) ∧
        ∃ node ds, tree[r]? = some node ∧
          List.Forall₂
            (fun c dc => ∀ fuel, tree.length ≤ fuel → get_depth fuel tree c = some dc)
            (ChildrenIt node) ds ∧
          (ChildrenIt node = [] → d = 1) ∧
          (ChildrenIt node ≠ [] → ∃ m ∈ ds, (∀ dc ∈ ds, dc ≤ m) ∧ d = 1 + m)) ∧
    ∃ d0 : Int,
      (∀ fuel, tree.length ≤ fuel → get_depth fuel tree 0 = some d0) ∧
      (∀ path, IsLeafPath tree 0 path → (path.length : Int) ≤ d0) ∧
      1 ≤ d0 ∧ d0 ≤ (tree.length : Int) := by
  have main : ∀ r, r < tree.length →
      ∃ d : Int,
        (∀ fuel, tree.length ≤ fuel → get_depth fuel tree r = some d) ∧
        (∃ path, IsLeafPath tree r path ∧ (path.length : Int) = d) ∧
        (∀ path, IsDownPath tree r path → (path.length : Int) ≤ d) ∧
        ∃ node ds, tree[r]? = some node ∧
          List.Forall₂
            (fun c dc => ∀ fuel, tree.length ≤ fuel → get_depth fuel tree c = some dc)
            (ChildrenIt node) ds ∧
          (ChildrenIt node = [] → d = 1) ∧
          (ChildrenIt node ≠ [] → ∃ m ∈ ds, (∀ dc ∈ ds, dc ≤ m) ∧ d = 1 + m) := by
    intro r hr
    obtain ⟨d, hd⟩ := get_depth_defined tree inv r hr
    obtain ⟨_, hex, hub⟩ := get_depth_sound _ tree r d hd
    refine ⟨d, fun fuel hf => get_depth_mono_fuel _ _ _ _ _ hf hd, hex, hub, ?_⟩
    have hn : tree[r]? = some tree[r] := List.getElem?_eq_getElem hr
    obtain ⟨n, hlen⟩ : ∃ n, tree.length = n + 1 := ⟨tree.length - 1, by omega⟩
    rw [hlen, get_depth_succ _ _ _ _ hn] at hd
    obtain ⟨ds, hds, hval⟩ := (foldlM_depth_step_eq_some _ _ _ _).1 hd
    have hge := foldl_max_ge ds 1
    rw [← hval] at hge
    refine ⟨tree[r], ds, hn, ?_, ?_, ?_⟩
    · refine hds.imp ?_
      intro c dc hc fuel hf
      exact get_depth_mono_fuel n fuel tree c dc (by omega) hc
    · intro hnil
      rw [hnil] at hds
      cases hds
      simpa using hval
    · intro hne
      rcases foldl_max_attained ds 1 with h1 | ⟨m, hm, h1⟩
      · rw [← hval] at h1
        exfalso
        rcases ds with _ | ⟨dc0, rest⟩
        · exact hne (List.forall₂_nil_right_iff.1 hds)
        · obtain ⟨c, _, hc⟩ := forall₂_mem_right hds (List.mem_cons_self dc0 rest)
          have h2 := hge.2 _ (List.mem_cons_self _ _)
          have h3 := (get_depth_sound _ _ _ _ hc).1
          omega
      · rw [← hval] at h1
        refine ⟨m, hm, ?_, h1⟩
        intro dc hdc
        have := hge.2 dc hdc
        omega
  refine ⟨main, ?_⟩
  obtain ⟨d0, hdef, ⟨path, hpath, hlen⟩, hub, _⟩ := main 0 inv.rooted
  refine ⟨d0, hdef, fun p hp => hub p hp.1, ?_, ?_⟩
  · exact (get_depth_sound _ tree 0 d0 (hdef _ le_rfl)).1
  · have := down_path_length_le tree inv path 0 inv.rooted hpath.1
    omega

/-- Witness of C10 on the example tree: it satisfies the invariant, its depth is 2, and
the bounds at the root hold. -/
theorem get_depth_spec_witness :
    TreeInvariant example_tree ∧
    get_depth example_tree.length example_tree 0 = some 2 ∧
    ∃ d0 : Int,
      (∀ fuel, example_tree.length ≤ fuel → get_depth fuel example_tree 0 = some d0) ∧
      (∀ path, IsLeafPath example_tree 0 path → (path.length : Int) ≤ d0) ∧
      1 ≤ d0 ∧ d0 ≤ (example_tree.length : Int) :=
  ⟨example_tree_invariant, by decide, (get_depth_spec example_tree example_tree_invariant).2⟩

end kuhn_poker
